import Mathlib

/- Verification of picture-dater (src/main.go): a shallow embedding of its
filename date parsing, French month localization, caption assembly,
extension filtering, recursive traversal, concurrency gate and annotation
geometry, together with proofs of the specified properties.  Strings are
modelled as lists of characters. -/

/-- ASCII digit test on a character, as the byte comparisons of Go
time.isDigit (between codes 48 and 57). -/
def isDigitCh (c : Char) : Bool := 48 ≤ c.toNat && c.toNat ≤ 57

/-- Numeric value of an ASCII digit character. -/
def dval (c : Char) : Nat := c.toNat - 48

/-- ASCII digit character for a value below ten. -/
def digitChar (n : Nat) : Char := Char.ofNat (48 + n)

/-- Uppercase ASCII letter test. -/
def isUpperCh (c : Char) : Bool := 65 ≤ c.toNat && c.toNat ≤ 90

/-- True when the list holds no uppercase ASCII letter. -/
def noUpper (l : List Char) : Bool := l.all fun c => !isUpperCh c

/-- Two-digit zero-padded decimal rendering, as Go time.appendInt with
width 2 on values below 100. -/
def pad2 (n : Nat) : List Char := [digitChar (n / 10), digitChar (n % 10)]

/-- Four-digit zero-padded decimal rendering, as Go time.appendInt with
width 4 on values below 10000. -/
def pad4 (n : Nat) : List Char :=
  [digitChar (n / 1000), digitChar (n / 100 % 10), digitChar (n / 10 % 10), digitChar (n % 10)]

/-- Prefix test on character lists, as Go strings.HasPrefix. -/
def startsWith : List Char → List Char → Bool
  | _, [] => true
  | [], _ :: _ => false
  | c :: cs, p :: ps => c = p && startsWith cs ps

/-- Substring containment, as Go strings.Contains: the second list occurs
contiguously inside the first. -/
def goContains : List Char → List Char → Bool
  | [], sub => sub.isEmpty
  | c :: cs, sub => startsWith (c :: cs) sub || goContains cs sub

/-- Left-to-right replacement of every non-overlapping occurrence, as Go
strings.Replace with count -1 and a non-empty pattern.  The extra fuel
argument makes the recursion structural; goReplace supplies enough fuel. -/
def goReplaceAux : Nat → List Char → List Char → List Char → List Char
  | 0, s, _, _ => s
  | _ + 1, [], _, _ => []
  | fuel + 1, c :: cs, pat, rep =>
    if !pat.isEmpty && startsWith (c :: cs) pat then
      rep ++ goReplaceAux fuel ((c :: cs).drop pat.length) pat rep
    else
      c :: goReplaceAux fuel cs pat rep

/-- Go strings.Replace with count -1 (all occurrences), for a non-empty
pattern. -/
def goReplace (s pat rep : List Char) : List Char := goReplaceAux s.length s pat rep

/-- The parsed components of a capture date, as produced by time.Parse in
actOnFile (time-of-day is parsed and range-checked, then discarded). -/
structure GoDate where
  year : Nat
  month : Nat
  day : Nat
  hour : Nat
  minute : Nat
  second : Nat
deriving DecidableEq, Repr

/-- Go time.getnum: one or two ASCII digits, exactly two when fixed. -/
def getnum (fixed : Bool) : List Char → Option (Nat × List Char)
  | [] => none
  | [c] => if isDigitCh c && !fixed then some (dval c, []) else none
  | c1 :: c2 :: rest =>
    if isDigitCh c1 then
      if isDigitCh c2 then some (dval c1 * 10 + dval c2, rest)
      else if fixed then none
      else some (dval c1, c2 :: rest)
    else none

/-- Go time.Parse on the layout token 2006: exactly four ASCII digits. -/
def getYear4 : List Char → Option (Nat × List Char)
  | a :: b :: c :: d :: rest =>
    if isDigitCh a && isDigitCh b && isDigitCh c && isDigitCh d then
      some (dval a * 1000 + dval b * 100 + dval c * 10 + dval d, rest)
    else none
  | _ => none

/-- Consume an expected literal chunk of the layout, as Go time.Parse does
for non-token text. -/
def skipLit : List Char → List Char → Option (List Char)
  | [], s => some s
  | _ :: _, [] => none
  | l :: ls, c :: cs => if c = l then skipLit ls cs else none

/-- Go time.Parse tolerance after the seconds field: a period or comma
followed by a digit run of any length is consumed as a fractional second
even though the layout has no fractional-second token; parseNanoseconds
keeps at most nine digits of precision but never rejects on digit count,
and the nanosecond value is discarded by the caller anyway. -/
def takeFrac : List Char → Option (List Char)
  | c :: d :: rest =>
    if (c = '.' || c = ',') && isDigitCh d then
      some ((d :: rest).dropWhile isDigitCh)
    else some (c :: d :: rest)
  | s => some s

/-- Go time.isLeap. -/
def isLeap (y : Nat) : Bool := y % 4 == 0 && (y % 100 != 0 || y % 400 == 0)

/-- Go time.daysIn: number of days of a month in a year. -/
def daysIn (m y : Nat) : Nat :=
  if m = 2 then (if isLeap y then 29 else 28)
  else if m = 4 ∨ m = 6 ∨ m = 9 ∨ m = 11 then 30
  else 31

/-- Final stage of the specialised time.Parse: the seconds range check,
the fractional-second tolerance, the literal tail -pola.jpg, the
end-of-input check and the day-of-month range check. -/
def parseAfterSeconds (year month day hour minute second : Nat) (s : List Char) :
    Option GoDate :=
  if 60 ≤ second then none else
  (takeFrac s).bind fun s =>
  (skipLit ("-pola.jpg".data) s).bind fun s =>
  if s.isEmpty then
    if day < 1 ∨ daysIn month year < day then none
    else some ⟨year, month, day, hour, minute, second⟩
  else none

/-- Middle stage of the specialised time.Parse: the hour range check, then
minute and second fields with their separators. -/
def parseAfterHour (year month day hour : Nat) (s : List Char) : Option GoDate :=
  if 24 ≤ hour then none else
  (skipLit ['-'] s).bind fun s =>
  (getnum true s).bind fun (minute, s) =>
  if 60 ≤ minute then none else
  (skipLit ['-'] s).bind fun s =>
  (getnum true s).bind fun (second, s) =>
  parseAfterSeconds year month day hour minute second s

/-- Go time.Parse specialised to the fixed layout of actOnFile,
2006-01-02_15-04-05-pola.jpg: a four-digit year, fixed two-digit month and
day, a one-or-two-digit hour (the 15 token is not fixed width), fixed
two-digit minute and second, an optional fractional second, and the literal
tail -pola.jpg; with the range checks time.Parse performs. -/
def parsePolaChars (s : List Char) : Option GoDate :=
  (getYear4 s).bind fun (year, s) =>
  (skipLit ['-'] s).bind fun s =>
  (getnum true s).bind fun (month, s) =>
  if month < 1 ∨ 12 < month then none else
  (skipLit ['-'] s).bind fun s =>
  (getnum true s).bind fun (day, s) =>
  (skipLit ['_'] s).bind fun s =>
  (getnum false s).bind fun (hour, s) =>
  parseAfterHour year month day hour s

/-- Go time.Month.String values, for the twelve valid months. -/
def englishMonth : Nat → String
  | 1 => "January"
  | 2 => "February"
  | 3 => "March"
  | 4 => "April"
  | 5 => "May"
  | 6 => "June"
  | 7 => "July"
  | 8 => "August"
  | 9 => "September"
  | 10 => "October"
  | 11 => "November"
  | 12 => "December"
  | _ => ""

/-- The formats map of main.go: English month names to French. -/
def formatsTable : List (String × String) :=
  [("January", "janvier"), ("February", "février"), ("March", "mars"),
   ("April", "avril"), ("May", "mai"), ("June", "juin"),
   ("July", "juillet"), ("August", "août"), ("September", "septembre"),
   ("October", "octobre"), ("November", "novembre"), ("December", "décembre")]

/-- Go map indexing on the formats map, with the zero value for a missing
key. -/
def formatsAt (k : String) : String := (formatsTable.lookup k).getD ""

/-- Go Format with layout January 2006 on an in-range date. -/
def formatMonthYear (d : GoDate) : List Char :=
  (englishMonth d.month).data ++ ' ' :: pad4 d.year

/-- Go Format with layout 02 January 2006 on an in-range date. -/
def formatDayMonthYear (d : GoDate) : List Char :=
  pad2 d.day ++ ' ' :: (englishMonth d.month).data ++ ' ' :: pad4 d.year

/-- localizeDate of main.go: the formatted date with the English month name
replaced by its French counterpart from the formats map. -/
def localizeDate (d : GoDate) (formatted : List Char) : List Char :=
  goReplace formatted (englishMonth d.month).data (formatsAt (englishMonth d.month)).data

/-- The displayedDate computation of actOnFile: day one gets the ordinal
prefix and a day-less layout, every other day the zero-padded layout. -/
def displayedDate (d : GoDate) : List Char :=
  if d.day = 1 then ("1er ".data) ++ localizeDate d (formatMonthYear d)
  else localizeDate d (formatDayMonthYear d)

/-- fmt.Sprintf restricted to templates whose only verb is v, which covers
the caption format flag's default value. -/
def sprintfV : List Char → List (List Char) → List Char
  | [], _ => []
  | '%' :: 'v' :: rest, a :: args => a ++ sprintfV rest args
  | '%' :: 'v' :: rest, [] => ("%!v(MISSING)".data) ++ sprintfV rest []
  | c :: rest, args => c :: sprintfV rest args

/-- The annotation string built by actOnFile: the location and displayed
date combined through the format template when the location is non-empty,
the displayed date alone otherwise. -/
def captionText (fmtTpl loca dd : List Char) : List Char :=
  if loca ≠ [] then sprintfV fmtTpl [loca, dd] else dd

/-- path.Join of main.go on the segment shapes it is used with, without the
Clean normalisation (segments here are non-empty and slash-free). -/
def pathJoin (a b : List Char) : List Char :=
  if a = [] then b else if b = [] then a else a ++ '/' :: b

/-- path.Base: trailing slashes dropped, then the last slash-separated
element; a dot for the empty path and a slash for an all-slash path. -/
def pathBase (s : List Char) : List Char :=
  if s = [] then ['.']
  else
    let t := s.reverse.dropWhile (· = '/')
    if t = [] then ['/'] else (t.takeWhile (· ≠ '/')).reverse

/-- Helper of filepathExt on the reversed name: the characters up to and
including the first dot, none when a slash comes first or there is no
dot. -/
def extAfterRev : List Char → Option (List Char)
  | [] => none
  | c :: cs =>
    if c = '/' then none
    else if c = '.' then some [c]
    else (extAfterRev cs).map fun e => c :: e

/-- filepath.Ext: the suffix starting at the final dot of the final path
element, empty when there is no dot. -/
def filepathExt (s : List Char) : List Char :=
  match extAfterRev s.reverse with
  | some e => e.reverse
  | none => []

/-- A directory entry, the part of os.FileInfo the traversal consults.  A
directory with readable set to false models one whose ioutil.ReadDir call
fails (its contents are never observed). -/
inductive Entry where
  | file (name : List Char)
  | dir (name : List Char) (readable : Bool) (contents : List Entry)

/-- The configuration flags the traversal reads: the extension filter and
the caption format template. -/
structure Config where
  ext : List Char
  fmtTpl : List Char

/-- One call of annotateImageWith: the unit of work handed to the external
tool, recording the directory scanned, the destination directory, the file
name and the caption. -/
structure AnnTask where
  source : List Char
  destination : List Char
  fileName : List Char
  caption : List Char
deriving DecidableEq, Repr

/-- Output path of a task, as built by annotateImageWith: the destination
directory joined with the file name. -/
def outPath (t : AnnTask) : List Char := pathJoin t.destination t.fileName

mutual
/-- actOnFile of main.go as a pure task collector: a directory whose name
differs from the destination's base name is recursed into with its own name
as the new location label (an unreadable one is logged and skipped); a file
is filtered by extension, parsed, and yields at most one task. -/
def actOnFileM (cfg : Config) (f : Entry) (location source destination : List Char) :
    List AnnTask :=
  match f with
  | .dir name readable contents =>
    if name ≠ pathBase destination then
      if readable then actOnFilesM cfg contents name (pathJoin source name) destination
      else []
    else []
  | .file name =>
    if (filepathExt name).isEmpty || !goContains cfg.ext (filepathExt name) then []
    else
      match parsePolaChars name with
      | none => []
      | some d => [⟨source, destination, name, captionText cfg.fmtTpl location (displayedDate d)⟩]
termination_by sizeOf f

/-- actOnFiles of main.go: dispatch every entry of one directory listing in
order. -/
def actOnFilesM (cfg : Config) (files : List Entry) (location source destination : List Char) :
    List AnnTask :=
  match files with
  | [] => []
  | f :: fs =>
    actOnFileM cfg f location source destination ++ actOnFilesM cfg fs location source destination
termination_by sizeOf files
end

/-- Remove, at every depth, the directory entries whose name equals b. -/
def pruneL (b : List Char) : List Entry → List Entry
  | [] => []
  | .file n :: fs => .file n :: pruneL b fs
  | .dir n r c :: fs =>
    if n = b then pruneL b fs
    else .dir n r (pruneL b c) :: pruneL b fs
termination_by fs => sizeOf fs

/-- The two conditions main.go treats as fatal. -/
inductive FatalKind where
  | sourceUnreadable
  | destCreateFailed
deriving DecidableEq, Repr

/-- main of main.go after flag parsing: abort when the top-level source
listing fails or the destination directory is unavailable, otherwise
traverse and collect every task.  rootListing is none when ioutil.ReadDir
on the source fails; destOk says whether the destination directory exists
or was created. -/
def runMain (cfg : Config) (rootListing : Option (List Entry)) (destOk : Bool)
    (loca src dest : List Char) : Except FatalKind (List AnnTask) :=
  match rootListing with
  | none => .error .sourceUnreadable
  | some files =>
    if !destOk then .error .destCreateFailed
    else .ok (actOnFilesM cfg files loca src (pathJoin src dest))

/-- Events a dispatched task performs on the guard channel. -/
inductive GateEvent where
  | acquire
  | invoke (ok : Bool)
  | release
deriving DecidableEq, Repr

/-- Event skeleton of one dispatched task under parallel mode: the loop of
actOnFiles sends on the guard channel before spawning the goroutine, and
actOnFile receives from it in a deferred function, so the release runs on
every exit path; processed says whether the file passed filtering and
parsing, ok whether the external convert call succeeded. -/
def taskEvents (processed ok : Bool) : List GateEvent :=
  GateEvent.acquire :: ((if processed then [GateEvent.invoke ok] else []) ++ [GateEvent.release])

/-- Interleaving semantics of the guard channel with the given capacity: a
send blocks at capacity, a receive blocks on an empty channel, the tool
invocation does not touch the channel. -/
inductive GStep (cap : Nat) :
    List (List GateEvent) → Nat → List (List GateEvent) → Nat → Prop where
  | acquire (pre post rest h) : h < cap →
      GStep cap (pre ++ (GateEvent.acquire :: rest) :: post) h (pre ++ rest :: post) (h + 1)
  | invoke (pre post rest h ok) :
      GStep cap (pre ++ (GateEvent.invoke ok :: rest) :: post) h (pre ++ rest :: post) h
  | release (pre post rest h) : 0 < h →
      GStep cap (pre ++ (GateEvent.release :: rest) :: post) h (pre ++ rest :: post) (h - 1)

/-- States reachable from an initial set of task programs with an empty
gate. -/
inductive GReach (cap : Nat) (init : List (List GateEvent)) :
    List (List GateEvent) → Nat → Prop where
  | start : GReach cap init init 0
  | step (ps h ps' h') : GReach cap init ps h → GStep cap ps h ps' h' → GReach cap init ps' h'

/-- Truncation of a rational toward zero, as Go's int32 conversion on
in-range values (t-division of numerator by denominator). -/
def goTruncQ (q : ℚ) : ℤ := q.num.tdiv (q.den : ℤ)

/-- textPositionFromBottom of annotateImageWith, its float32 arithmetic
modelled exactly over the rationals (the band height constant is 350). -/
def textPositionFromBottom (textInPointSize bottomMargin : ℤ) : ℚ :=
  (350 : ℚ) / 2 - (((textInPointSize : ℚ) / 0.75) / 2) / 2 - (bottomMargin : ℚ)

/-- The geometry argument handed to convert by annotateImageWith. -/
def annotateFormat (textInPointSize bottomMargin : ℤ) : String :=
  "+0+" ++ toString (goTruncQ (textPositionFromBottom textInPointSize bottomMargin))

/-- The defaults of the ext and format flags. -/
def cfgDefault : Config := ⟨".jpg".data, "%v, %v".data⟩

/-- Hour field value of a one or two digit hour field. -/
def hourVal : List Char → Nat
  | [h] => dval h
  | [h1, h2] => dval h1 * 10 + dval h2
  | _ => 0

/-- Modelled from the spec: a filename of exactly the rigid shape
YYYY-MM-DD_HH-MM-SS-pola.jpg, every field fixed width and the date and
time components in range. -/
def StrictPola (s : List Char) : Prop :=
  ∃ y1 y2 y3 y4 m1 m2 d1 d2 h1 h2 mi1 mi2 se1 se2 : Char,
    s = [y1, y2, y3, y4, '-', m1, m2, '-', d1, d2, '_', h1, h2, '-', mi1, mi2, '-', se1, se2]
        ++ ("-pola.jpg".data) ∧
    ([y1, y2, y3, y4, m1, m2, d1, d2, h1, h2, mi1, mi2, se1, se2].all isDigitCh) = true ∧
    1 ≤ dval m1 * 10 + dval m2 ∧ dval m1 * 10 + dval m2 ≤ 12 ∧
    1 ≤ dval d1 * 10 + dval d2 ∧
    dval d1 * 10 + dval d2 ≤
      daysIn (dval m1 * 10 + dval m2)
        (dval y1 * 1000 + dval y2 * 100 + dval y3 * 10 + dval y4) ∧
    dval h1 * 10 + dval h2 ≤ 23 ∧ dval mi1 * 10 + dval mi2 ≤ 59 ∧ dval se1 * 10 + dval se2 ≤ 59

/-- Modelled from the spec as amended: the rigid layout with the two
tolerances Go's parser grants, a one-digit hour and an optional fractional
second of one or more digits after a period or comma; the given date holds
the parsed component values. -/
def LenientPolaAt (s : List Char) (d : GoDate) : Prop :=
  ∃ (y1 y2 y3 y4 m1 m2 d1 d2 : Char) (hs : List Char) (mi1 mi2 se1 se2 : Char)
    (frac : List Char),
    s = [y1, y2, y3, y4, '-', m1, m2, '-', d1, d2, '_'] ++ hs ++
        '-' :: mi1 :: mi2 :: '-' :: se1 :: se2 :: (frac ++ ("-pola.jpg".data)) ∧
    ([y1, y2, y3, y4, m1, m2, d1, d2, mi1, mi2, se1, se2].all isDigitCh) = true ∧
    (hs.all isDigitCh) = true ∧ (hs.length = 1 ∨ hs.length = 2) ∧
    (frac = [] ∨ ∃ sep ds, frac = sep :: ds ∧ (sep = '.' ∨ sep = ',') ∧ ds ≠ [] ∧
      (ds.all isDigitCh) = true) ∧
    d = ⟨dval y1 * 1000 + dval y2 * 100 + dval y3 * 10 + dval y4,
         dval m1 * 10 + dval m2, dval d1 * 10 + dval d2,
         hourVal hs, dval mi1 * 10 + dval mi2, dval se1 * 10 + dval se2⟩ ∧
    1 ≤ d.month ∧ d.month ≤ 12 ∧ 1 ≤ d.day ∧ d.day ≤ daysIn d.month d.year ∧
    d.hour ≤ 23 ∧ d.minute ≤ 59 ∧ d.second ≤ 59

/-- Modelled from the spec as amended: a filename the lenient layout
accepts for some component values. -/
def LenientPola (s : List Char) : Prop := ∃ d, LenientPolaAt s d

/-- A digit character decodes to a value below ten. -/
theorem dval_le_nine (c : Char) (h : isDigitCh c = true) : dval c ≤ 9 := by
  simp only [isDigitCh, Bool.and_eq_true, decide_eq_true_eq] at h
  unfold dval
  omega

/-- Values below ten round-trip through digitChar. -/
theorem isDigitCh_digitChar (n : Nat) (h : n < 10) : isDigitCh (digitChar n) = true := by
  interval_cases n <;> decide

/-- Digit characters are not uppercase letters. -/
theorem digitChar_not_upper (n : Nat) (h : n < 10) : isUpperCh (digitChar n) = false := by
  interval_cases n <;> decide

/-- pad2 of a value below 100 holds no uppercase letter. -/
theorem noUpper_pad2 (n : Nat) (h : n ≤ 99) : noUpper (pad2 n) = true := by
  simp only [noUpper, pad2, List.all_cons, List.all_nil, Bool.and_eq_true, Bool.not_eq_true']
  exact ⟨digitChar_not_upper _ (by omega), digitChar_not_upper _ (by omega), trivial⟩

/-- pad4 of a value below 10000 holds no uppercase letter. -/
theorem noUpper_pad4 (n : Nat) (h : n ≤ 9999) : noUpper (pad4 n) = true := by
  simp only [noUpper, pad4, List.all_cons, List.all_nil, Bool.and_eq_true, Bool.not_eq_true']
  exact ⟨digitChar_not_upper _ (by omega), digitChar_not_upper _ (by omega),
    digitChar_not_upper _ (by omega), digitChar_not_upper _ (by omega), trivial⟩

/-- pad2 of a value below 100 is two digit characters. -/
theorem pad2_digits (n : Nat) (h : n ≤ 99) : (pad2 n).all isDigitCh = true := by
  simp only [pad2, List.all_cons, List.all_nil, Bool.and_eq_true]
  exact ⟨isDigitCh_digitChar _ (by omega), isDigitCh_digitChar _ (by omega), trivial⟩

/-- A list starts with itself followed by anything. -/
theorem startsWith_append (l t : List Char) : startsWith (l ++ t) l = true := by
  induction l with
  | nil => cases t <;> rfl
  | cons c cs ih => simp [startsWith, ih]

/-- Truncation toward zero agrees with the floor on nonnegative
rationals. -/
theorem goTruncQ_eq_floor (q : ℚ) (h : 0 ≤ q) : goTruncQ q = ⌊q⌋ := by
  rw [Rat.floor_def]
  unfold goTruncQ
  obtain ⟨m, hm⟩ : ∃ m : ℕ, q.num = (m : ℤ) :=
    ⟨q.num.toNat, (Int.toNat_of_nonneg (Rat.num_nonneg.mpr h)).symm⟩
  rw [hm]
  rfl

/-- A pattern opening with an uppercase letter never matches inside a list
without uppercase letters, so goContains rejects it. -/
theorem goContains_false_of_noUpper (s : List Char) (p : Char) (ps : List Char)
    (hs : noUpper s = true) (hp : isUpperCh p = true) : goContains s (p :: ps) = false := by
  induction s with
  | nil => rfl
  | cons c cs ih =>
    simp only [noUpper, List.all_cons, Bool.and_eq_true, Bool.not_eq_true'] at hs
    have hcp : c ≠ p := fun h => by rw [h, hp] at hs; exact absurd hs.1 (by simp)
    simp only [goContains, startsWith, Bool.or_eq_false_iff, Bool.and_eq_false_iff]
    exact ⟨Or.inl (by simp [hcp]), ih (by simp [noUpper, hs.2])⟩

/-- Scanning a list without uppercase letters for an uppercase-led pattern
replaces nothing. -/
theorem goReplaceAux_no_match (fuel : Nat) (s pat rep : List Char) (p : Char) (ps : List Char)
    (hf : s.length ≤ fuel) (hs : noUpper s = true) (hpat : pat = p :: ps)
    (hp : isUpperCh p = true) : goReplaceAux fuel s pat rep = s := by
  induction fuel generalizing s with
  | zero => cases s <;> rfl
  | succ fuel ih =>
    cases s with
    | nil => rfl
    | cons c cs =>
      simp only [noUpper, List.all_cons, Bool.and_eq_true, Bool.not_eq_true'] at hs
      have hcp : c ≠ p := fun h => by rw [h, hp] at hs; exact absurd hs.1 (by simp)
      have hguard : startsWith (c :: cs) pat = false := by
        rw [hpat]; simp [startsWith, hcp]
      simp only [goReplaceAux, hguard, Bool.and_false, Bool.false_eq_true, if_false]
      have := ih cs (by simpa using Nat.le_of_succ_le_succ (by simpa using hf))
        (by simp [noUpper, hs.2])
      rw [this]

/-- On a list made of a clean part, a single uppercase-led occurrence of
the pattern and another clean part, goReplace substitutes exactly that
occurrence. -/
theorem goReplaceAux_single (fuel : Nat) (A B pat rep : List Char) (p : Char) (ps : List Char)
    (hpat : pat = p :: ps) (hf : (A ++ pat ++ B).length ≤ fuel)
    (hA : noUpper A = true) (hB : noUpper B = true) (hp : isUpperCh p = true) :
    goReplaceAux fuel (A ++ pat ++ B) pat rep = A ++ rep ++ B := by
  subst hpat
  induction fuel generalizing A with
  | zero => simp [List.length_append] at hf
  | succ fuel ih =>
    cases A with
    | nil =>
      simp only [List.nil_append, List.cons_append, List.length_cons, List.length_append] at hf ⊢
      have hsw : startsWith (p :: (ps ++ B)) (p :: ps) = true := by
        have := startsWith_append (p :: ps) B
        simpa using this
      simp only [goReplaceAux, hsw, List.isEmpty_cons, Bool.not_false, Bool.true_and, if_true,
        List.length_cons, List.drop_succ_cons, List.drop_left]
      rw [goReplaceAux_no_match fuel B (p :: ps) rep p ps (by omega) hB rfl hp]
    | cons a A2 =>
      simp only [noUpper, List.all_cons, Bool.and_eq_true, Bool.not_eq_true'] at hA
      have hap : a ≠ p := fun h => by rw [h, hp] at hA; exact absurd hA.1 (by simp)
      simp only [List.cons_append, List.length_cons] at hf ⊢
      have hg : startsWith (a :: (A2 ++ (p :: ps) ++ B)) (p :: ps) = false := by
        simp [startsWith, hap]
      simp only [goReplaceAux]
      rw [hg]
      simp only [Bool.and_false, Bool.false_eq_true, if_false]
      have hih := ih A2 (by simp [noUpper, hA.2])
        (by simp only [List.length_append, List.length_cons] at hf ⊢; omega)
      rw [hih]

/-- goReplace substitutes a single uppercase-led occurrence. -/
theorem goReplace_single (A B pat rep : List Char) (p : Char) (ps : List Char)
    (hpat : pat = p :: ps) (hA : noUpper A = true) (hB : noUpper B = true)
    (hp : isUpperCh p = true) :
    goReplace (A ++ pat ++ B) pat rep = A ++ rep ++ B :=
  goReplaceAux_single _ A B pat rep p ps hpat (Nat.le_refl _) hA hB hp

/-- Every valid month renders as a non-empty English name opening with an
uppercase letter. -/
theorem englishMonth_shape (m : Nat) (h1 : 1 ≤ m) (h2 : m ≤ 12) :
    ∃ p ps, (englishMonth m).data = p :: ps ∧ isUpperCh p = true := by
  interval_cases m <;> exact ⟨_, _, rfl, rfl⟩

/-- Every valid month's French name holds no uppercase letter. -/
theorem frenchMonth_noUpper (m : Nat) (h1 : 1 ≤ m) (h2 : m ≤ 12) :
    noUpper ((formatsAt (englishMonth m)).data) = true := by
  interval_cases m <;> decide

/-- The localized displayed date in closed form: for valid components the
month substitution of localizeDate rewrites exactly the English month
name. -/
theorem displayedDate_eq (d : GoDate) (h1 : 1 ≤ d.month) (h2 : d.month ≤ 12)
    (hday : d.day ≤ 99) (hyear : d.year ≤ 9999) :
    displayedDate d =
      if d.day = 1 then
        ("1er ".data) ++ ((formatsAt (englishMonth d.month)).data ++ ' ' :: pad4 d.year)
      else pad2 d.day ++ ' ' :: ((formatsAt (englishMonth d.month)).data ++ ' ' :: pad4 d.year) := by
  obtain ⟨p, ps, hpps, hup⟩ := englishMonth_shape d.month h1 h2
  have hBup : noUpper (' ' :: pad4 d.year) = true := by
    have := noUpper_pad4 d.year hyear
    simp [noUpper] at this ⊢
    exact ⟨rfl, fun c hc => this c hc⟩
  unfold displayedDate localizeDate formatMonthYear formatDayMonthYear
  by_cases hd : d.day = 1
  · simp only [hd, if_true, if_pos]
    have h := goReplace_single [] (' ' :: pad4 d.year) ((englishMonth d.month).data)
      ((formatsAt (englishMonth d.month)).data) p ps hpps rfl hBup hup
    simp only [List.nil_append] at h
    rw [h]
  · simp only [hd, if_false, if_neg hd]
    have hAup : noUpper (pad2 d.day ++ [' ']) = true := by
      have := noUpper_pad2 d.day hday
      simp [noUpper] at this ⊢
      exact ⟨fun c hc => this c hc, rfl⟩
    have h := goReplace_single (pad2 d.day ++ [' ']) (' ' :: pad4 d.year)
      ((englishMonth d.month).data) ((formatsAt (englishMonth d.month)).data) p ps hpps hAup
      hBup hup
    simp only [List.append_assoc, List.cons_append, List.nil_append] at h ⊢
    rw [h]

/-- The head of the list, when present, is not a digit. -/
def headNotDigit (r : List Char) : Prop := ∀ c cs, r = c :: cs → isDigitCh c = false

/-- Characterisation of the four-digit year field. -/
theorem getYear4_eq_some (s : List Char) (n : Nat) (r : List Char) :
    getYear4 s = some (n, r) ↔
      ∃ a b c d, s = a :: b :: c :: d :: r ∧ isDigitCh a = true ∧ isDigitCh b = true ∧
        isDigitCh c = true ∧ isDigitCh d = true ∧
        n = dval a * 1000 + dval b * 100 + dval c * 10 + dval d := by
  constructor
  · intro h
    match s with
    | [] => simp [getYear4] at h
    | [a] => simp [getYear4] at h
    | [a, b] => simp [getYear4] at h
    | [a, b, c] => simp [getYear4] at h
    | a :: b :: c :: d :: rest =>
      by_cases hd : (isDigitCh a && isDigitCh b && isDigitCh c && isDigitCh d) = true
      · simp only [getYear4, hd, if_true, Option.some.injEq, Prod.mk.injEq] at h
        obtain ⟨h1, h2⟩ := h
        simp only [Bool.and_eq_true] at hd
        exact ⟨a, b, c, d, by rw [← h2], hd.1.1.1, hd.1.1.2, hd.1.2, hd.2, h1.symm⟩
      · simp only [getYear4, hd, if_false] at h
        simp at h
  · rintro ⟨a, b, c, d, rfl, ha, hb, hc, hd, rfl⟩
    simp [getYear4, ha, hb, hc, hd]

/-- Characterisation of a fixed two-digit field. -/
theorem getnum_true_eq_some (s : List Char) (n : Nat) (r : List Char) :
    getnum true s = some (n, r) ↔
      ∃ a b, s = a :: b :: r ∧ isDigitCh a = true ∧ isDigitCh b = true ∧
        n = dval a * 10 + dval b := by
  constructor
  · intro h
    match s with
    | [] => simp [getnum] at h
    | [a] => simp [getnum] at h
    | a :: b :: rest =>
      by_cases ha : isDigitCh a = true
      · by_cases hb : isDigitCh b = true
        · simp only [getnum, ha, hb, if_true, Option.some.injEq, Prod.mk.injEq] at h
          obtain ⟨h1, h2⟩ := h
          exact ⟨a, b, by rw [← h2], ha, hb, h1.symm⟩
        · simp [getnum, ha, hb] at h
      · simp [getnum, ha] at h
  · rintro ⟨a, b, rfl, ha, hb, rfl⟩
    simp [getnum, ha, hb]

/-- Characterisation of the one-or-two-digit hour field. -/
theorem getnum_false_eq_some (s : List Char) (n : Nat) (r : List Char) :
    getnum false s = some (n, r) ↔
      ((∃ a b, s = a :: b :: r ∧ isDigitCh a = true ∧ isDigitCh b = true ∧
          n = dval a * 10 + dval b) ∨
        (∃ a, s = a :: r ∧ isDigitCh a = true ∧ n = dval a ∧ headNotDigit r)) := by
  constructor
  · intro h
    match s with
    | [] => simp [getnum] at h
    | [a] =>
      by_cases ha : isDigitCh a = true
      · simp only [getnum, ha, Bool.not_false, Bool.and_true, if_true, Option.some.injEq,
          Prod.mk.injEq] at h
        obtain ⟨h1, h2⟩ := h
        exact Or.inr ⟨a, by rw [← h2], ha, h1.symm, by rw [← h2]; intro c cs hc; cases hc⟩
      · simp [getnum, ha] at h
    | a :: b :: rest =>
      by_cases ha : isDigitCh a = true
      · by_cases hb : isDigitCh b = true
        · simp only [getnum, ha, hb, if_true, Option.some.injEq, Prod.mk.injEq] at h
          obtain ⟨h1, h2⟩ := h
          exact Or.inl ⟨a, b, by rw [← h2], ha, hb, h1.symm⟩
        · simp only [getnum, ha, hb, if_false, if_true, Bool.false_eq_true,
            Option.some.injEq, Prod.mk.injEq] at h
          obtain ⟨h1, h2⟩ := h
          refine Or.inr ⟨a, by rw [← h2], ha, h1.symm, ?_⟩
          rw [← h2]
          intro c cs hc
          have hbc : b = c := by
            have := List.cons.injEq b rest c cs ▸ hc
            exact this.1
          rw [← hbc]
          exact Bool.eq_false_iff.mpr hb
      · simp [getnum, ha] at h
  · rintro (⟨a, b, rfl, ha, hb, rfl⟩ | ⟨a, rfl, ha, rfl, hr⟩)
    · simp [getnum, ha, hb]
    · match r with
      | [] => simp [getnum, ha]
      | c :: cs =>
        have hc := hr c cs rfl
        simp [getnum, ha, hc]

/-- Characterisation of a literal layout chunk. -/
theorem skipLit_eq_some (lit s r : List Char) : skipLit lit s = some r ↔ s = lit ++ r := by
  induction lit generalizing s with
  | nil => simp [skipLit, eq_comm]
  | cons l ls ih =>
    cases s with
    | nil => simp [skipLit]
    | cons c cs =>
      by_cases hc : c = l
      · rw [hc]
        have hstep : skipLit (l :: ls) (l :: cs) = skipLit ls cs := by simp [skipLit]
        rw [hstep, ih cs]
        simp
      · simp only [skipLit, if_neg hc, List.cons_append, List.cons.injEq]
        constructor
        · intro h; cases h
        · rintro ⟨h, -⟩; exact absurd h hc
/-- takeWhile and dropWhile on a digit block followed by a non-digit. -/
theorem takeDropWhile_digits (ds r : List Char) (hds : ds.all isDigitCh = true)
    (hr : headNotDigit r) :
    (ds ++ r).takeWhile isDigitCh = ds ∧ (ds ++ r).dropWhile isDigitCh = r := by
  induction ds with
  | nil =>
    cases r with
    | nil => exact ⟨rfl, rfl⟩
    | cons c cs =>
      have := hr c cs rfl
      simp [List.takeWhile, List.dropWhile, this]
  | cons d ds ih =>
    simp only [List.all_cons, Bool.and_eq_true] at hds
    have := ih hds.2
    simp [List.takeWhile, List.dropWhile, hds.1, this.1, this.2]

/-- Every element a takeWhile keeps satisfies the predicate. -/
theorem all_takeWhile (p : Char → Bool) (l : List Char) : (l.takeWhile p).all p = true := by
  induction l with
  | nil => rfl
  | cons c cs ih =>
    by_cases hc : p c = true
    · simp [List.takeWhile, hc, ih]
    · simp [List.takeWhile, Bool.eq_false_iff.mpr hc]

/-- The head of a dropWhile result fails the predicate. -/
theorem headNot_dropWhile (l : List Char) : ∀ c cs, l.dropWhile isDigitCh = c :: cs →
    isDigitCh c = false := by
  induction l with
  | nil => intro c cs h; cases h
  | cons d ds ih =>
    intro c cs h
    by_cases hd : isDigitCh d = true
    · rw [List.dropWhile_cons_of_pos hd] at h
      exact ih c cs h
    · rw [List.dropWhile_cons_of_neg hd] at h
      have hdc : d = c := (List.cons.injEq d ds c cs ▸ h).1
      rw [← hdc]
      exact Bool.eq_false_iff.mpr hd

/-- When the head of the list is not a fractional-second opener, the
fractional-second scan is the identity. -/
def noFracHead (s : List Char) : Prop :=
  ∀ c d rest, s = c :: d :: rest → (c = '.' ∨ c = ',') → isDigitCh d = false

/-- Characterisation of the fractional-second tolerance scan. -/
theorem takeFrac_eq_some (s r : List Char) :
    takeFrac s = some r ↔
      ((s = r ∧ noFracHead s) ∨
        ∃ sep ds, s = sep :: (ds ++ r) ∧ (sep = '.' ∨ sep = ',') ∧ ds ≠ [] ∧
          ds.all isDigitCh = true ∧ headNotDigit r) := by
  constructor
  · intro h
    match s with
    | [] =>
      simp only [takeFrac, Option.some.injEq] at h
      exact Or.inl ⟨h, fun c d rest hc => by cases hc⟩
    | [c] =>
      simp only [takeFrac, Option.some.injEq] at h
      exact Or.inl ⟨h, fun c2 d rest hc => by cases hc⟩
    | c :: d :: rest =>
      by_cases hcd : ((c = '.' || c = ',') && isDigitCh d) = true
      · simp only [takeFrac, hcd, if_true, Option.some.injEq] at h
        simp only [Bool.and_eq_true, Bool.or_eq_true, decide_eq_true_eq] at hcd
        refine Or.inr ⟨c, (d :: rest).takeWhile isDigitCh, ?_, hcd.1, ?_, ?_, ?_⟩
        · rw [← h, List.takeWhile_append_dropWhile]
        · simp [List.takeWhile, hcd.2]
        · exact all_takeWhile isDigitCh (d :: rest)
        · rw [← h]; exact headNot_dropWhile (d :: rest)
      · simp only [takeFrac, hcd, Bool.false_eq_true, if_false, Option.some.injEq] at h
        refine Or.inl ⟨h, fun c2 d2 rest2 hc hsep2 => ?_⟩
        simp only [List.cons.injEq] at hc
        obtain ⟨hcc, hdd, -⟩ := hc
        simp only [Bool.and_eq_true, Bool.or_eq_true, decide_eq_true_eq] at hcd
        rw [← hdd]
        rw [← hcc] at hsep2
        by_cases hd : isDigitCh d = true
        · exact absurd ⟨hsep2, hd⟩ hcd
        · exact Bool.eq_false_iff.mpr hd
  · rintro (⟨rfl, hnf⟩ | ⟨sep, ds, rfl, hsep, hne, hall, hr⟩)
    · match s with
      | [] => rfl
      | [c] => rfl
      | c :: d :: rest =>
        have hcd : ((c = '.' || c = ',') && isDigitCh d) = false := by
          by_cases hsep : c = '.' ∨ c = ','
          · have := hnf c d rest rfl hsep
            simp [this]
          · push_neg at hsep
            simp [hsep.1, hsep.2]
        simp [takeFrac, hcd]
    · match ds, hne with
      | d0 :: ds2, _ =>
        have hd0 : isDigitCh d0 = true := by
          simp only [List.all_cons, Bool.and_eq_true] at hall
          exact hall.1
        have htw := takeDropWhile_digits (d0 :: ds2) r hall hr
        have hcd : ((sep = '.' || sep = ',') && isDigitCh d0) = true := by
          rcases hsep with h | h <;> simp [h, hd0]
        simp only [List.cons_append, takeFrac, hcd, if_true]
        rw [show d0 :: (ds2 ++ r) = (d0 :: ds2) ++ r from rfl, htw.2]
/-- Shape of an admissible fractional-second block. -/
def FracOk (frac : List Char) : Prop :=
  frac = [] ∨ ∃ sep ds, frac = sep :: ds ∧ (sep = '.' ∨ sep = ',') ∧ ds ≠ [] ∧
    ds.all isDigitCh = true

/-- The literal tail does not open with a digit. -/
theorem headNotDigit_tail : headNotDigit ("-pola.jpg".data) := by
  intro c cs hcc
  rw [show ("-pola.jpg".data) = '-' :: ("pola.jpg".data) from rfl] at hcc
  simp only [List.cons.injEq] at hcc
  rw [← hcc.1]
  rfl

/-- The literal tail does not open a fractional second. -/
theorem noFracHead_tail : noFracHead ("-pola.jpg".data) := by
  intro c d2 rest hcc hsep
  rw [show ("-pola.jpg".data) = '-' :: ('p' :: ("ola.jpg".data)) from rfl] at hcc
  simp only [List.cons.injEq] at hcc
  rcases hsep with h | h <;> rw [h] at hcc <;> exact absurd hcc.1.symm (by decide)

/-- Characterisation of the last parsing stage. -/
theorem parseAfterSeconds_eq_some (y mo da ho mi se : Nat) (s : List Char) (d : GoDate) :
    parseAfterSeconds y mo da ho mi se s = some d ↔
      se ≤ 59 ∧ 1 ≤ da ∧ da ≤ daysIn mo y ∧
      (∃ frac, s = frac ++ ("-pola.jpg".data) ∧ FracOk frac) ∧
      d = ⟨y, mo, da, ho, mi, se⟩ := by
  constructor
  · intro h
    unfold parseAfterSeconds at h
    have hse : ¬60 ≤ se := by intro hq; rw [if_pos hq] at h; cases h
    rw [if_neg hse] at h
    rw [Option.bind_eq_some] at h
    obtain ⟨r, hfrac, h⟩ := h
    rw [Option.bind_eq_some] at h
    obtain ⟨r2, hlit, h⟩ := h
    rw [skipLit_eq_some] at hlit
    have hemp : r2.isEmpty = true := by
      by_contra hq
      rw [if_neg (by simpa using hq)] at h
      cases h
    rw [if_pos hemp] at h
    have hday : ¬(da < 1 ∨ daysIn mo y < da) := by
      intro hq; rw [if_pos hq] at h; cases h
    rw [if_neg hday] at h
    have hr2 : r2 = [] := by
      cases r2 with
      | nil => rfl
      | cons a as => simp [List.isEmpty] at hemp
    subst hr2
    rw [takeFrac_eq_some] at hfrac
    refine ⟨by omega, by omega, by omega, ?_, ?_⟩
    · rcases hfrac with ⟨rfl, -⟩ | ⟨sep, ds, rfl, hsep, hne, hall, -⟩
      · exact ⟨[], by simp [hlit], Or.inl rfl⟩
      · exact ⟨sep :: ds, by simp [hlit], Or.inr ⟨sep, ds, rfl, hsep, hne, hall⟩⟩
    · simp only [Option.some.injEq] at h
      exact h.symm
  · rintro ⟨hse, hda1, hda2, ⟨frac, rfl, hfrac⟩, rfl⟩
    unfold parseAfterSeconds
    rw [if_neg (by omega)]
    have hfr : takeFrac (frac ++ ("-pola.jpg".data)) = some ("-pola.jpg".data) := by
      rcases hfrac with rfl | ⟨sep, ds, rfl, hsep, hne, hall⟩
      · rw [List.nil_append, takeFrac_eq_some]
        exact Or.inl ⟨rfl, noFracHead_tail⟩
      · rw [takeFrac_eq_some]
        exact Or.inr ⟨sep, ds, by simp, hsep, hne, hall, headNotDigit_tail⟩
    rw [hfr, Option.some_bind]
    rw [show skipLit ("-pola.jpg".data) ("-pola.jpg".data) = some [] from
      (skipLit_eq_some _ _ _).mpr (by simp)]
    rw [Option.some_bind]
    rw [if_pos (show List.isEmpty [] = true from rfl), if_neg (show ¬(da < 1 ∨ daysIn mo y < da) by omega)]
/-- Characterisation of the middle parsing stage. -/
theorem parseAfterHour_eq_some (y mo da ho : Nat) (s : List Char) (d : GoDate) :
    parseAfterHour y mo da ho s = some d ↔
      ho ≤ 23 ∧ 1 ≤ da ∧ da ≤ daysIn mo y ∧
      ∃ mi1 mi2 se1 se2 frac,
        s = '-' :: mi1 :: mi2 :: '-' :: se1 :: se2 :: (frac ++ ("-pola.jpg".data)) ∧
        isDigitCh mi1 = true ∧ isDigitCh mi2 = true ∧
        isDigitCh se1 = true ∧ isDigitCh se2 = true ∧
        dval mi1 * 10 + dval mi2 ≤ 59 ∧ dval se1 * 10 + dval se2 ≤ 59 ∧ FracOk frac ∧
        d = ⟨y, mo, da, ho, dval mi1 * 10 + dval mi2, dval se1 * 10 + dval se2⟩ := by
  constructor
  · intro h
    unfold parseAfterHour at h
    have hho : ¬24 ≤ ho := by intro hq; rw [if_pos hq] at h; cases h
    rw [if_neg hho] at h
    rw [Option.bind_eq_some] at h
    obtain ⟨s1, hl1, h⟩ := h
    rw [skipLit_eq_some] at hl1
    rw [Option.bind_eq_some] at h
    obtain ⟨⟨mi, s2⟩, hmi, h⟩ := h
    rw [getnum_true_eq_some] at hmi
    obtain ⟨mi1, mi2, rfl, hmi1, hmi2, rfl⟩ := hmi
    dsimp only at h
    have hmile : ¬60 ≤ dval mi1 * 10 + dval mi2 := by
      intro hq; rw [if_pos hq] at h; cases h
    rw [if_neg hmile] at h
    rw [Option.bind_eq_some] at h
    obtain ⟨s3, hl2, h⟩ := h
    rw [skipLit_eq_some] at hl2
    rw [Option.bind_eq_some] at h
    obtain ⟨⟨se, s4⟩, hsec, h⟩ := h
    rw [getnum_true_eq_some] at hsec
    obtain ⟨se1, se2, rfl, hse1, hse2, rfl⟩ := hsec
    dsimp only at h
    rw [parseAfterSeconds_eq_some] at h
    obtain ⟨hsele, hda1, hda2, ⟨frac, rfl, hfrac⟩, rfl⟩ := h
    refine ⟨by omega, hda1, hda2, mi1, mi2, se1, se2, frac, ?_, hmi1, hmi2, hse1, hse2,
      by omega, by omega, hfrac, rfl⟩
    rw [hl1, hl2]
    simp
  · rintro ⟨hho, hda1, hda2, mi1, mi2, se1, se2, frac, rfl, hmi1, hmi2, hse1, hse2,
      hmile, hsele, hfrac, rfl⟩
    unfold parseAfterHour
    rw [if_neg (by omega)]
    rw [show skipLit ['-'] ('-' :: mi1 :: mi2 :: '-' :: se1 :: se2 ::
        (frac ++ ("-pola.jpg".data))) = some (mi1 :: mi2 :: '-' :: se1 :: se2 ::
        (frac ++ ("-pola.jpg".data))) from (skipLit_eq_some _ _ _).mpr (by simp)]
    rw [Option.some_bind]
    rw [show getnum true (mi1 :: mi2 :: '-' :: se1 :: se2 :: (frac ++ ("-pola.jpg".data))) =
        some (dval mi1 * 10 + dval mi2, '-' :: se1 :: se2 :: (frac ++ ("-pola.jpg".data))) from
      (getnum_true_eq_some _ _ _).mpr ⟨mi1, mi2, rfl, hmi1, hmi2, rfl⟩]
    rw [Option.some_bind]
    dsimp only
    rw [if_neg (show ¬60 ≤ dval mi1 * 10 + dval mi2 by omega)]
    rw [show skipLit ['-'] ('-' :: se1 :: se2 :: (frac ++ ("-pola.jpg".data))) =
        some (se1 :: se2 :: (frac ++ ("-pola.jpg".data))) from
      (skipLit_eq_some _ _ _).mpr (by simp)]
    rw [Option.some_bind]
    rw [show getnum true (se1 :: se2 :: (frac ++ ("-pola.jpg".data))) =
        some (dval se1 * 10 + dval se2, frac ++ ("-pola.jpg".data)) from
      (getnum_true_eq_some _ _ _).mpr ⟨se1, se2, rfl, hse1, hse2, rfl⟩]
    rw [Option.some_bind]
    dsimp only
    rw [parseAfterSeconds_eq_some]
    exact ⟨by omega, hda1, hda2, ⟨frac, rfl, hfrac⟩, rfl⟩
/-- Full characterisation of the specialised time.Parse: it accepts exactly
the lenient layout, and returns the decimal component values. -/
theorem parsePolaChars_eq_some (s : List Char) (d : GoDate) :
    parsePolaChars s = some d ↔ LenientPolaAt s d := by
  constructor
  · intro h
    unfold parsePolaChars at h
    rw [Option.bind_eq_some] at h
    obtain ⟨⟨yr, s1⟩, hyr, h⟩ := h
    rw [getYear4_eq_some] at hyr
    obtain ⟨y1, y2, y3, y4, rfl, hy1, hy2, hy3, hy4, rfl⟩ := hyr
    dsimp only at h
    rw [Option.bind_eq_some] at h
    obtain ⟨s2, hl1, h⟩ := h
    rw [skipLit_eq_some] at hl1
    rw [Option.bind_eq_some] at h
    obtain ⟨⟨mo, s3⟩, hmo, h⟩ := h
    rw [getnum_true_eq_some] at hmo
    obtain ⟨m1, m2, rfl, hm1, hm2, rfl⟩ := hmo
    dsimp only at h
    have hmole : ¬(dval m1 * 10 + dval m2 < 1 ∨ 12 < dval m1 * 10 + dval m2) := by
      intro hq; rw [if_pos hq] at h; cases h
    rw [if_neg hmole] at h
    rw [Option.bind_eq_some] at h
    obtain ⟨s4, hl2, h⟩ := h
    rw [skipLit_eq_some] at hl2
    rw [Option.bind_eq_some] at h
    obtain ⟨⟨da, s5⟩, hda, h⟩ := h
    rw [getnum_true_eq_some] at hda
    obtain ⟨d1, d2, rfl, hd1, hd2, rfl⟩ := hda
    dsimp only at h
    rw [Option.bind_eq_some] at h
    obtain ⟨s6, hl3, h⟩ := h
    rw [skipLit_eq_some] at hl3
    rw [Option.bind_eq_some] at h
    obtain ⟨⟨ho, s7⟩, hho, h⟩ := h
    rw [getnum_false_eq_some] at hho
    dsimp only at h
    rw [parseAfterHour_eq_some] at h
    obtain ⟨hhole, hda1, hda2, mi1, mi2, se1, se2, frac, rfl, hmi1, hmi2, hse1, hse2,
      hmile, hsele, hfrac, rfl⟩ := h
    rcases hho with ⟨h1, h2, rfl, hh1, hh2, hhval⟩ | ⟨h1, rfl, hh1, hhval, -⟩
    · refine ⟨y1, y2, y3, y4, m1, m2, d1, d2, [h1, h2], mi1, mi2, se1, se2, frac, ?_, ?_,
        ?_, Or.inr rfl, hfrac, ?_, ?_, ?_, ?_, ?_, ?_, ?_, ?_⟩
      · rw [hl1, hl2, hl3]; simp
      · simp [hy1, hy2, hy3, hy4, hm1, hm2, hd1, hd2, hmi1, hmi2, hse1, hse2]
      · simp [hh1, hh2]
      · simp [hourVal, hhval]
      all_goals (simp [hourVal] at hda1 hda2 hhole hmile hsele ⊢; omega)
    · refine ⟨y1, y2, y3, y4, m1, m2, d1, d2, [h1], mi1, mi2, se1, se2, frac, ?_, ?_,
        ?_, Or.inl rfl, hfrac, ?_, ?_, ?_, ?_, ?_, ?_, ?_, ?_⟩
      · rw [hl1, hl2, hl3]; simp
      · simp [hy1, hy2, hy3, hy4, hm1, hm2, hd1, hd2, hmi1, hmi2, hse1, hse2]
      · simp [hh1]
      · simp [hourVal, hhval]
      all_goals (simp [hourVal] at hda1 hda2 hhole hmile hsele ⊢; omega)
  · rintro ⟨y1, y2, y3, y4, m1, m2, d1, d2, hs, mi1, mi2, se1, se2, frac, rfl, hdig, hhsdig,
      hhslen, hfrac, rfl, hmo1, hmo2, hda1, hda2, hho, hmile, hsele⟩
    simp only [List.all_cons, List.all_nil, Bool.and_eq_true, Bool.and_true] at hdig
    obtain ⟨hy1, hy2, hy3, hy4, hm1, hm2, hd1, hd2, hmi1, hmi2, hse1, hse2⟩ := hdig
    simp only at hmo1 hmo2 hda1 hda2 hho hmile hsele
    unfold parsePolaChars
    rw [show getYear4 ([y1, y2, y3, y4, '-', m1, m2, '-', d1, d2, '_'] ++ hs ++
        '-' :: mi1 :: mi2 :: '-' :: se1 :: se2 :: (frac ++ ("-pola.jpg".data))) =
        some (dval y1 * 1000 + dval y2 * 100 + dval y3 * 10 + dval y4,
          '-' :: m1 :: m2 :: '-' :: d1 :: d2 :: '_' :: (hs ++
            '-' :: mi1 :: mi2 :: '-' :: se1 :: se2 :: (frac ++ ("-pola.jpg".data)))) from
      (getYear4_eq_some _ _ _).mpr ⟨y1, y2, y3, y4, by simp, hy1, hy2, hy3, hy4, rfl⟩]
    rw [Option.some_bind]
    dsimp only
    rw [show skipLit ['-'] ('-' :: m1 :: m2 :: '-' :: d1 :: d2 :: '_' :: (hs ++
        '-' :: mi1 :: mi2 :: '-' :: se1 :: se2 :: (frac ++ ("-pola.jpg".data)))) =
        some (m1 :: m2 :: '-' :: d1 :: d2 :: '_' :: (hs ++
          '-' :: mi1 :: mi2 :: '-' :: se1 :: se2 :: (frac ++ ("-pola.jpg".data)))) from
      (skipLit_eq_some _ _ _).mpr (by simp)]
    rw [Option.some_bind]
    rw [show getnum true (m1 :: m2 :: '-' :: d1 :: d2 :: '_' :: (hs ++
        '-' :: mi1 :: mi2 :: '-' :: se1 :: se2 :: (frac ++ ("-pola.jpg".data)))) =
        some (dval m1 * 10 + dval m2, '-' :: d1 :: d2 :: '_' :: (hs ++
          '-' :: mi1 :: mi2 :: '-' :: se1 :: se2 :: (frac ++ ("-pola.jpg".data)))) from
      (getnum_true_eq_some _ _ _).mpr ⟨m1, m2, rfl, hm1, hm2, rfl⟩]
    rw [Option.some_bind]
    dsimp only
    rw [if_neg (show ¬(dval m1 * 10 + dval m2 < 1 ∨ 12 < dval m1 * 10 + dval m2) by omega)]
    rw [show skipLit ['-'] ('-' :: d1 :: d2 :: '_' :: (hs ++
        '-' :: mi1 :: mi2 :: '-' :: se1 :: se2 :: (frac ++ ("-pola.jpg".data)))) =
        some (d1 :: d2 :: '_' :: (hs ++
          '-' :: mi1 :: mi2 :: '-' :: se1 :: se2 :: (frac ++ ("-pola.jpg".data)))) from
      (skipLit_eq_some _ _ _).mpr (by simp)]
    rw [Option.some_bind]
    rw [show getnum true (d1 :: d2 :: '_' :: (hs ++
        '-' :: mi1 :: mi2 :: '-' :: se1 :: se2 :: (frac ++ ("-pola.jpg".data)))) =
        some (dval d1 * 10 + dval d2, '_' :: (hs ++
          '-' :: mi1 :: mi2 :: '-' :: se1 :: se2 :: (frac ++ ("-pola.jpg".data)))) from
      (getnum_true_eq_some _ _ _).mpr ⟨d1, d2, rfl, hd1, hd2, rfl⟩]
    rw [Option.some_bind]
    dsimp only
    rw [show skipLit ['_'] ('_' :: (hs ++
        '-' :: mi1 :: mi2 :: '-' :: se1 :: se2 :: (frac ++ ("-pola.jpg".data)))) =
        some (hs ++ '-' :: mi1 :: mi2 :: '-' :: se1 :: se2 :: (frac ++ ("-pola.jpg".data))) from
      (skipLit_eq_some _ _ _).mpr (by simp)]
    rw [Option.some_bind]
    match hs, hhslen, hhsdig with
    | [h1], _, hhsdig =>
      have hh1 : isDigitCh h1 = true := by simpa using hhsdig
      rw [show getnum false ([h1] ++ '-' :: mi1 :: mi2 :: '-' :: se1 :: se2 ::
          (frac ++ ("-pola.jpg".data))) =
          some (dval h1, '-' :: mi1 :: mi2 :: '-' :: se1 :: se2 ::
            (frac ++ ("-pola.jpg".data))) from
        (getnum_false_eq_some _ _ _).mpr (Or.inr ⟨h1, by simp, hh1, rfl, by
          intro c cs hc
          simp only [List.cons.injEq] at hc
          rw [← hc.1]
          rfl⟩)]
      rw [Option.some_bind]
      dsimp only
      rw [parseAfterHour_eq_some]
      simp only [hourVal] at hho hda1 hda2 ⊢
      exact ⟨by omega, hda1, hda2, mi1, mi2, se1, se2, frac, rfl, hmi1, hmi2, hse1, hse2,
        by omega, by omega, hfrac, rfl⟩
    | [h1, h2], _, hhsdig =>
      have hh12 : isDigitCh h1 = true ∧ isDigitCh h2 = true := by simpa using hhsdig
      rw [show getnum false ([h1, h2] ++ '-' :: mi1 :: mi2 :: '-' :: se1 :: se2 ::
          (frac ++ ("-pola.jpg".data))) =
          some (dval h1 * 10 + dval h2, '-' :: mi1 :: mi2 :: '-' :: se1 :: se2 ::
            (frac ++ ("-pola.jpg".data))) from
        (getnum_false_eq_some _ _ _).mpr (Or.inl ⟨h1, h2, by simp, hh12.1, hh12.2, rfl⟩)]
      rw [Option.some_bind]
      dsimp only
      rw [parseAfterHour_eq_some]
      simp only [hourVal] at hho hda1 hda2 ⊢
      exact ⟨by omega, hda1, hda2, mi1, mi2, se1, se2, frac, rfl, hmi1, hmi2, hse1, hse2,
        by omega, by omega, hfrac, rfl⟩
/-- Every month has at most 31 days. -/
theorem daysIn_le_31 (m y : Nat) : daysIn m y ≤ 31 := by
  unfold daysIn
  split_ifs <;> omega

/-- Bounds on every successfully parsed date. -/
theorem parsePolaChars_bounds (s : List Char) (d : GoDate)
    (h : parsePolaChars s = some d) :
    1 ≤ d.month ∧ d.month ≤ 12 ∧ 1 ≤ d.day ∧ d.day ≤ 31 ∧ d.year ≤ 9999 := by
  rw [parsePolaChars_eq_some] at h
  obtain ⟨y1, y2, y3, y4, m1, m2, d1, d2, hs, mi1, mi2, se1, se2, frac, -, hdig, -, -, -,
    rfl, hmo1, hmo2, hda1, hda2, -, -, -⟩ := h
  simp only [List.all_cons, List.all_nil, Bool.and_eq_true, Bool.and_true] at hdig
  obtain ⟨hy1, hy2, hy3, hy4, -, -, -, -, -, -, -, -⟩ := hdig
  have b1 := dval_le_nine y1 hy1
  have b2 := dval_le_nine y2 hy2
  have b3 := dval_le_nine y3 hy3
  have b4 := dval_le_nine y4 hy4
  have hd31 := daysIn_le_31 (dval m1 * 10 + dval m2)
    (dval y1 * 1000 + dval y2 * 100 + dval y3 * 10 + dval y4)
  exact ⟨hmo1, hmo2, hda1, by simp only at hda2 ⊢; omega, by simp only; omega⟩

/-- A directory entry named like the destination is never entered. -/
theorem actOnFileM_dir_dest (cfg : Config) (r : Bool) (c : List Entry)
    (loca src dst : List Char) :
    actOnFileM cfg (.dir (pathBase dst) r c) loca src dst = [] := by
  simp [actOnFileM]

/-- An unreadable directory entry contributes nothing. -/
theorem actOnFileM_dir_unreadable (cfg : Config) (n : List Char) (c : List Entry)
    (loca src dst : List Char) :
    actOnFileM cfg (.dir n false c) loca src dst = [] := by
  simp [actOnFileM]

/-- A readable directory entry not named like the destination is recursed
into, with its own name as the new location label. -/
theorem actOnFileM_dir_other (cfg : Config) (n : List Char) (c : List Entry)
    (loca src dst : List Char) (hn : n ≠ pathBase dst) :
    actOnFileM cfg (.dir n true c) loca src dst =
      actOnFilesM cfg c n (pathJoin src n) dst := by
  simp [actOnFileM, hn]

/-- The traversal of a concatenated listing splits into the traversals of
its parts. -/
theorem actOnFilesM_append (cfg : Config) (xs ys : List Entry) (loca src dst : List Char) :
    actOnFilesM cfg (xs ++ ys) loca src dst =
      actOnFilesM cfg xs loca src dst ++ actOnFilesM cfg ys loca src dst := by
  induction xs with
  | nil => simp [actOnFilesM]
  | cons f fs ih => simp [actOnFilesM, ih]

/-- Removing every destination-named directory at any depth leaves the
produced tasks unchanged. -/
theorem actOnFilesM_prune (cfg : Config) (fs : List Entry) (loca src dst : List Char) :
    actOnFilesM cfg (pruneL (pathBase dst) fs) loca src dst =
      actOnFilesM cfg fs loca src dst := by
  match fs with
  | [] => simp [pruneL]
  | .file n :: fs2 =>
    simp only [pruneL, actOnFilesM]
    rw [actOnFilesM_prune cfg fs2 loca src dst]
  | .dir n r c :: fs2 =>
    by_cases hn : n = pathBase dst
    · rw [show pruneL (pathBase dst) (Entry.dir n r c :: fs2) = pruneL (pathBase dst) fs2
        from by simp [pruneL, hn]]
      rw [actOnFilesM_prune cfg fs2 loca src dst]
      rw [show actOnFilesM cfg (Entry.dir n r c :: fs2) loca src dst =
        actOnFileM cfg (Entry.dir n r c) loca src dst ++ actOnFilesM cfg fs2 loca src dst
        from by simp [actOnFilesM]]
      rw [hn, actOnFileM_dir_dest]
      simp
    · rw [show pruneL (pathBase dst) (Entry.dir n r c :: fs2) =
        Entry.dir n r (pruneL (pathBase dst) c) :: pruneL (pathBase dst) fs2
        from by simp [pruneL, hn]]
      rw [show actOnFilesM cfg (Entry.dir n r (pruneL (pathBase dst) c) ::
          pruneL (pathBase dst) fs2) loca src dst =
        actOnFileM cfg (Entry.dir n r (pruneL (pathBase dst) c)) loca src dst ++
          actOnFilesM cfg (pruneL (pathBase dst) fs2) loca src dst
        from by simp [actOnFilesM]]
      rw [show actOnFilesM cfg (Entry.dir n r c :: fs2) loca src dst =
        actOnFileM cfg (Entry.dir n r c) loca src dst ++ actOnFilesM cfg fs2 loca src dst
        from by simp [actOnFilesM]]
      rw [actOnFilesM_prune cfg fs2 loca src dst]
      cases r with
      | false => rw [actOnFileM_dir_unreadable, actOnFileM_dir_unreadable]
      | true =>
        rw [actOnFileM_dir_other cfg _ _ loca src dst hn,
          actOnFileM_dir_other cfg _ _ loca src dst hn]
        rw [actOnFilesM_prune cfg c n (pathJoin src n) dst]
termination_by sizeOf fs

/-- Every produced task carries the destination directory it was started
with. -/
theorem actOnFilesM_dest (cfg : Config) (fs : List Entry) (loca src dst : List Char)
    (t : AnnTask) (h : t ∈ actOnFilesM cfg fs loca src dst) : t.destination = dst := by
  match fs with
  | [] => simp [actOnFilesM] at h
  | .file n :: fs2 =>
    rw [show actOnFilesM cfg (Entry.file n :: fs2) loca src dst =
      actOnFileM cfg (Entry.file n) loca src dst ++ actOnFilesM cfg fs2 loca src dst
      from by simp [actOnFilesM]] at h
    rw [List.mem_append] at h
    rcases h with h | h
    · simp only [actOnFileM] at h
      split at h
      · simp at h
      · split at h
        · simp at h
        · rw [List.mem_singleton] at h
          rw [h]
    · exact actOnFilesM_dest cfg fs2 loca src dst t h
  | .dir n r c :: fs2 =>
    rw [show actOnFilesM cfg (Entry.dir n r c :: fs2) loca src dst =
      actOnFileM cfg (Entry.dir n r c) loca src dst ++ actOnFilesM cfg fs2 loca src dst
      from by simp [actOnFilesM]] at h
    rw [List.mem_append] at h
    rcases h with h | h
    · by_cases hn : n = pathBase dst
      · rw [hn, actOnFileM_dir_dest] at h
        simp at h
      · cases r with
        | false =>
          rw [actOnFileM_dir_unreadable] at h
          simp at h
        | true =>
          rw [actOnFileM_dir_other cfg _ _ loca src dst hn] at h
          exact actOnFilesM_dest cfg c n (pathJoin src n) dst t h
    · exact actOnFilesM_dest cfg fs2 loca src dst t h
termination_by sizeOf fs

/-- The gate never holds more than its capacity. -/
theorem gReach_le_cap (cap : Nat) (init ps : List (List GateEvent)) (h : Nat)
    (hr : GReach cap init ps h) : h ≤ cap := by
  induction hr with
  | start => exact Nat.zero_le cap
  | step ps1 h1 ps2 h2 hr1 hstep ih =>
    cases hstep with
    | acquire pre post rest hh hlt => omega
    | invoke => exact ih
    | release => omega
/-- The file branch of actOnFile in closed form. -/
theorem actOnFileM_file (cfg : Config) (n loca src dst : List Char) :
    actOnFileM cfg (.file n) loca src dst =
      if (filepathExt n).isEmpty || !goContains cfg.ext (filepathExt n) then []
      else
        match parsePolaChars n with
        | none => []
        | some d => [⟨src, dst, n, captionText cfg.fmtTpl loca (displayedDate d)⟩] := by
  simp [actOnFileM]

/-- Rigid layout filenames satisfy the lenient layout. -/
theorem strictPola_lenientAt (s : List Char) (h : StrictPola s) : ∃ d, LenientPolaAt s d := by
  obtain ⟨y1, y2, y3, y4, m1, m2, d1, d2, h1, h2, mi1, mi2, se1, se2, rfl, hdig, hmo1, hmo2,
    hda1, hda2, hho, hmi, hse⟩ := h
  simp only [List.all_cons, List.all_nil, Bool.and_eq_true, Bool.and_true] at hdig
  obtain ⟨hy1, hy2, hy3, hy4, hm1, hm2, hd1, hd2, hh1, hh2, hmi1, hmi2, hse1, hse2⟩ := hdig
  refine ⟨⟨dval y1 * 1000 + dval y2 * 100 + dval y3 * 10 + dval y4,
    dval m1 * 10 + dval m2, dval d1 * 10 + dval d2, dval h1 * 10 + dval h2,
    dval mi1 * 10 + dval mi2, dval se1 * 10 + dval se2⟩,
    y1, y2, y3, y4, m1, m2, d1, d2, [h1, h2], mi1, mi2, se1, se2, [], by simp,
    by simp [hy1, hy2, hy3, hy4, hm1, hm2, hd1, hd2, hmi1, hmi2, hse1, hse2],
    by simp [hh1, hh2], Or.inr rfl, Or.inl rfl, by simp [hourVal],
    by simpa using hmo1, by simpa using hmo2, by simpa using hda1, by simpa using hda2,
    by simpa using hho, by simpa using hmi, by simpa using hse⟩

/-- Claim C1 (corrected): date resolution succeeds on exactly the lenient
layout — the rigid YYYY-MM-DD_HH-MM-SS-pola.jpg shape except that the hour
may be a single digit and an optional fractional second (period or comma
plus one or more digits) may follow the seconds; every rigid-layout
filename is accepted with a deterministic result, and a file whose name
fails to parse produces no annotation task. -/
theorem C1_parse_layout (s : List Char) :
    ((∃ d, parsePolaChars s = some d) ↔ LenientPola s) ∧
    (StrictPola s → LenientPola s) ∧
    (∀ (cfg : Config) (loca src dst : List Char),
      parsePolaChars s = none → actOnFileM cfg (.file s) loca src dst = []) := by
  refine ⟨⟨fun h => ?_, fun h => ?_⟩, fun h => strictPola_lenientAt s h, ?_⟩
  · obtain ⟨d, hd⟩ := h
    exact ⟨d, (parsePolaChars_eq_some s d).mp hd⟩
  · obtain ⟨d, hd⟩ := h
    exact ⟨d, (parsePolaChars_eq_some s d).mpr hd⟩
  · intro cfg loca src dst hnone
    rw [actOnFileM_file]
    split
    · rfl
    · rw [hnone]

/-- Witness for C1: a non-matching name parses to nothing and yields no
task. -/
theorem C1_parse_layout_witness :
    actOnFileM cfgDefault (.file ("notadate.jpg".data)) [] [] [] = [] :=
  (C1_parse_layout ("notadate.jpg".data)).2.2 cfgDefault [] [] [] (by decide)

/-- Counterexample to C1 as stated: a one-digit hour is not the rigid
layout, yet it parses and produces a task. -/
theorem C1_counterexample :
    ¬ StrictPola ("2023-01-01_9-00-00-pola.jpg".data) ∧
    parsePolaChars ("2023-01-01_9-00-00-pola.jpg".data) = some ⟨2023, 1, 1, 9, 0, 0⟩ ∧
    actOnFileM cfgDefault (.file ("2023-01-01_9-00-00-pola.jpg".data)) []
      ("src".data) ("src/ready".data) ≠ [] := by
  refine ⟨?_, by decide, ?_⟩
  · rintro ⟨y1, y2, y3, y4, m1, m2, d1, d2, h1, h2, mi1, mi2, se1, se2, heq, -⟩
    have hlen := congrArg List.length heq
    rw [show ("2023-01-01_9-00-00-pola.jpg".data).length = 27 from by decide] at hlen
    simp [List.length_append] at hlen
  · rw [actOnFileM_file]
    decide

/-- Claim C2: under parallel mode with capacity cap no reachable state of
the guard channel holds more than cap slots, and the event sequence of each
dispatched task acquires once and releases exactly once, the release coming
last on every path, including after a failing tool call. -/
theorem C2_gate_bound :
    (∀ (cap : Nat) (init ps : List (List GateEvent)) (h : Nat),
      GReach cap init ps h → h ≤ cap) ∧
    (∀ processed ok : Bool,
      (taskEvents processed ok).count GateEvent.acquire = 1 ∧
      (taskEvents processed ok).count GateEvent.release = 1 ∧
      (taskEvents processed ok).getLast? = some GateEvent.release) := by
  refine ⟨fun cap init ps h hr => gReach_le_cap cap init ps h hr, fun processed ok => ?_⟩
  cases processed <;> cases ok <;> exact ⟨by decide, by decide, by decide⟩

/-- Witness for C2: the empty-gate initial state of one task respects a
capacity of ten. -/
theorem C2_gate_bound_witness : (0 : Nat) ≤ 10 :=
  C2_gate_bound.1 10 [taskEvents true false] [taskEvents true false] 0 GReach.start

/-- Claim C3: the annotation geometry is the stated pure function of text
size and bottom margin, truncated toward zero, and at the defaults 100pt
and 30px the offset is 111 and the geometry string +0+111. -/
theorem C3_geometry :
    goTruncQ (textPositionFromBottom 100 30) = 111 ∧
    annotateFormat 100 30 = "+0+111" ∧
    (∀ t b : ℤ, textPositionFromBottom t b =
      (350 : ℚ) / 2 - (((t : ℚ) / 0.75) / 2) / 2 - (b : ℚ)) := by
  have h1 : textPositionFromBottom 100 30 = 335/3 := by
    unfold textPositionFromBottom
    norm_num
  have h2 : goTruncQ ((335 : ℚ)/3) = 111 := by
    rw [goTruncQ_eq_floor _ (by norm_num), Int.floor_eq_iff]
    norm_num
  refine ⟨by rw [h1]; exact h2, ?_, fun t b => rfl⟩
  unfold annotateFormat
  rw [h1, h2]
  rfl
/-- The displayed date of a valid date holds no uppercase letter. -/
theorem noUpper_displayedDate (d : GoDate) (h1 : 1 ≤ d.month) (h2 : d.month ≤ 12)
    (hday : d.day ≤ 99) (hyear : d.year ≤ 9999) : noUpper (displayedDate d) = true := by
  rw [displayedDate_eq d h1 h2 hday hyear]
  have hfr := frenchMonth_noUpper d.month h1 h2
  have hp4 := noUpper_pad4 d.year hyear
  have hp2 := noUpper_pad2 d.day hday
  simp only [noUpper, List.all_eq_true, Bool.not_eq_true'] at hfr hp4 hp2 ⊢
  by_cases hd : d.day = 1
  · rw [if_pos hd]
    intro c hc
    simp only [List.mem_append, List.mem_cons] at hc
    rcases hc with hc | hc | rfl | hc
    · have : c = '1' ∨ c = 'e' ∨ c = 'r' ∨ c = ' ' := by simpa using hc
      rcases this with rfl | rfl | rfl | rfl <;> rfl
    · exact hfr c hc
    · rfl
    · exact hp4 c hc
  · rw [if_neg hd]
    intro c hc
    simp only [List.mem_append, List.mem_cons] at hc
    rcases hc with hc | rfl | hc | rfl | hc
    · exact hp2 c hc
    · rfl
    · exact hfr c hc
    · rfl
    · exact hp4 c hc

/-- Claim C4: caption assembly applies the two-slot template to location
and displayed date when the location is non-empty and yields the displayed
date alone otherwise; the two end-to-end examples give the specified
captions. -/
theorem C4_caption_assembly :
    actOnFileM cfgDefault (.file ("2023-01-01_10-00-00-pola.jpg".data)) ("Paris".data)
        ("src".data) ("src/ready".data) =
      [⟨"src".data, "src/ready".data, "2023-01-01_10-00-00-pola.jpg".data,
        "Paris, 1er janvier 2023".data⟩] ∧
    actOnFileM cfgDefault (.file ("2023-03-15_10-00-00-pola.jpg".data)) []
        ("src".data) ("src/ready".data) =
      [⟨"src".data, "src/ready".data, "2023-03-15_10-00-00-pola.jpg".data,
        "15 mars 2023".data⟩] ∧
    (∀ fmtTpl loca dd : List Char, loca ≠ [] →
      captionText fmtTpl loca dd = sprintfV fmtTpl [loca, dd]) ∧
    (∀ fmtTpl dd : List Char, captionText fmtTpl [] dd = dd) := by
  refine ⟨?_, ?_, fun fmtTpl loca dd h => by simp [captionText, h],
    fun fmtTpl dd => by simp [captionText]⟩
  · rw [actOnFileM_file]
    decide
  · rw [actOnFileM_file]
    decide

/-- Witness for C4: the non-empty location branch on the default format. -/
theorem C4_caption_assembly_witness :
    captionText ("%v, %v".data) ("Paris".data) ("1er janvier 2023".data) =
      sprintfV ("%v, %v".data) [("Paris".data), ("1er janvier 2023".data)] :=
  C4_caption_assembly.2.2.1 ("%v, %v".data) ("Paris".data) ("1er janvier 2023".data)
    (by decide)

/-- Claim C5: the localization table maps each of the twelve English month
names, and the displayed date of every successfully parsed filename never
contains any English month name. -/
theorem C5_localized_months :
    formatsTable.length = 12 ∧
    (∀ m, 1 ≤ m → m ≤ 12 → (formatsTable.lookup (englishMonth m)).isSome = true) ∧
    (∀ (s : List Char) (d : GoDate), parsePolaChars s = some d →
      ∀ m, 1 ≤ m → m ≤ 12 →
        goContains (displayedDate d) ((englishMonth m).data) = false) := by
  refine ⟨by decide, fun m h1 h2 => by interval_cases m <;> decide, ?_⟩
  intro s d hp m hm1 hm2
  obtain ⟨hdmo1, hdmo2, hdda1, hdda2, hdyr⟩ := parsePolaChars_bounds s d hp
  obtain ⟨p, ps, hpps, hup⟩ := englishMonth_shape m hm1 hm2
  rw [hpps]
  exact goContains_false_of_noUpper _ p ps
    (noUpper_displayedDate d hdmo1 hdmo2 (by omega) hdyr) hup

/-- Witness for C5: the March example displays no English month name. -/
theorem C5_localized_months_witness :
    goContains (displayedDate ⟨2023, 3, 15, 10, 0, 0⟩) (("January").data) = false :=
  C5_localized_months.2.2 ("2023-03-15_10-00-00-pola.jpg".data) ⟨2023, 3, 15, 10, 0, 0⟩
    (by decide) 1 (by decide) (by decide)

/-- Claim C6 (corrected): a file is skipped unless its extension is
non-empty and contained as a substring of the filter string; the
containment runs that way around, so a filter .jp rejects a .jpg file
while a filter .jpg accepts a .jp file. -/
theorem C6_extension_filter :
    (∀ (cfg : Config) (n loca src dst : List Char),
      ((filepathExt n).isEmpty || !goContains cfg.ext (filepathExt n)) = true →
      actOnFileM cfg (.file n) loca src dst = []) ∧
    filepathExt ("photo.jpg".data) = ".jpg".data ∧
    goContains (".jp".data) (".jpg".data) = false ∧
    goContains (".jpg".data) (".jp".data) = true := by
  refine ⟨fun cfg n loca src dst h => ?_, by decide, by decide, by decide⟩
  rw [actOnFileM_file, if_pos h]

/-- Witness for C6: a .jpg file is skipped under the filter .jp. -/
theorem C6_extension_filter_witness :
    actOnFileM ⟨".jp".data, "%v, %v".data⟩ (.file ("photo.jpg".data)) [] [] [] = [] :=
  C6_extension_filter.1 ⟨".jp".data, "%v, %v".data⟩ ("photo.jpg".data) [] [] [] (by decide)

/-- Counterexample to C6 as stated: the extension .jpg is not contained in
the filter .jp, so such a file is excluded, not accepted, even though its
name parses. -/
theorem C6_counterexample :
    goContains (".jp".data) (".jpg".data) = false ∧
    actOnFileM ⟨".jp".data, "%v, %v".data⟩
      (.file ("2023-01-01_10-00-00-pola.jpg".data)) [] ("src".data) ("src/ready".data)
      = [] := by
  refine ⟨by decide, ?_⟩
  rw [actOnFileM_file]
  decide
/-- Claim C7: a directory entry named like the destination's base name is
never recursed into, at any depth — pruning every such directory from the
tree leaves the produced tasks unchanged — and every other readable
directory is recursed into with its own name replacing the incoming
location label. -/
theorem C7_destination_skip :
    (∀ (cfg : Config) (r : Bool) (c : List Entry) (loca src dst : List Char),
      actOnFileM cfg (.dir (pathBase dst) r c) loca src dst = []) ∧
    (∀ (cfg : Config) (fs : List Entry) (loca src dst : List Char),
      actOnFilesM cfg (pruneL (pathBase dst) fs) loca src dst =
        actOnFilesM cfg fs loca src dst) ∧
    (∀ (cfg : Config) (n : List Char) (c : List Entry) (loca src dst : List Char),
      n ≠ pathBase dst →
      actOnFileM cfg (.dir n true c) loca src dst =
        actOnFilesM cfg c n (pathJoin src n) dst) :=
  ⟨fun cfg r c loca src dst => actOnFileM_dir_dest cfg r c loca src dst,
   fun cfg fs loca src dst => actOnFilesM_prune cfg fs loca src dst,
   fun cfg n c loca src dst hn => actOnFileM_dir_other cfg n c loca src dst hn⟩

/-- Witness for C7: a subdirectory named sub is recursed into with itself
as the location label. -/
theorem C7_destination_skip_witness :
    actOnFileM cfgDefault (.dir ("sub".data) true []) [] ("src".data) ("src/ready".data) =
      actOnFilesM cfgDefault [] ("sub".data) (pathJoin ("src".data) ("sub".data))
        ("src/ready".data) :=
  C7_destination_skip.2.2 cfgDefault ("sub".data) [] [] ("src".data) ("src/ready".data)
    (by decide)

/-- Claim C8: the run aborts fatally exactly when the top-level source
listing fails or the destination directory is unavailable; an unreadable
nested directory drops only its own subtree while the siblings before and
after it still contribute their tasks. -/
theorem C8_failure_scoping :
    (∀ (cfg : Config) (rootListing : Option (List Entry)) (destOk : Bool)
      (loca src dest : List Char),
      (∃ e, runMain cfg rootListing destOk loca src dest = .error e) ↔
        (rootListing = none ∨ destOk = false)) ∧
    (∀ (cfg : Config) (pre post : List Entry) (n : List Char) (c : List Entry)
      (loca src dst : List Char),
      actOnFilesM cfg (pre ++ Entry.dir n false c :: post) loca src dst =
        actOnFilesM cfg pre loca src dst ++ actOnFilesM cfg post loca src dst) := by
  constructor
  · intro cfg rootListing destOk loca src dest
    constructor
    · rintro ⟨e, he⟩
      cases rootListing with
      | none => exact Or.inl rfl
      | some files =>
        cases destOk with
        | false => exact Or.inr rfl
        | true => simp [runMain] at he
    · rintro (rfl | rfl)
      · exact ⟨.sourceUnreadable, rfl⟩
      · cases rootListing with
        | none => exact ⟨.sourceUnreadable, rfl⟩
        | some files => exact ⟨.destCreateFailed, rfl⟩
  · intro cfg pre post n c loca src dst
    rw [actOnFilesM_append]
    rw [show actOnFilesM cfg (Entry.dir n false c :: post) loca src dst =
      actOnFileM cfg (Entry.dir n false c) loca src dst ++ actOnFilesM cfg post loca src dst
      from by simp [actOnFilesM]]
    rw [actOnFileM_dir_unreadable]
    simp

/-- Witness for C8: an unreadable top-level source directory is fatal. -/
theorem C8_failure_scoping_witness :
    ∃ e, runMain cfgDefault none true [] [] [] = .error e :=
  (C8_failure_scoping.1 cfgDefault none true [] [] []).mpr (Or.inl rfl)

/-- Claim C9 (corrected): for every parsed date with day one the displayed
date begins with 1er — and so does the caption when the location label is
empty; with a non-empty location the caption opens with the location
instead — while for any other day the displayed date begins with the
two-digit zero-padded day. -/
theorem C9_ordinal_day (s : List Char) (d : GoDate) (hp : parsePolaChars s = some d) :
    (d.day = 1 → ∀ fmtTpl : List Char,
      startsWith (captionText fmtTpl [] (displayedDate d)) ("1er ".data) = true) ∧
    (d.day ≠ 1 → startsWith (displayedDate d) (pad2 d.day) = true ∧
      (pad2 d.day).all isDigitCh = true ∧ (pad2 d.day).length = 2) := by
  obtain ⟨h1, h2, hda1, hda2, hyr⟩ := parsePolaChars_bounds s d hp
  have hdd := displayedDate_eq d h1 h2 (by omega) hyr
  constructor
  · intro hday fmtTpl
    rw [show captionText fmtTpl [] (displayedDate d) = displayedDate d from by
      simp [captionText]]
    rw [hdd, if_pos hday]
    exact startsWith_append _ _
  · intro hday
    rw [hdd, if_neg hday]
    exact ⟨startsWith_append _ _, pad2_digits d.day (by omega), rfl⟩

/-- Witness for C9: the first-of-January example. -/
theorem C9_ordinal_day_witness :
    startsWith (captionText ("%v, %v".data) []
      (displayedDate ⟨2023, 1, 1, 10, 0, 0⟩)) ("1er ".data) = true :=
  (C9_ordinal_day ("2023-01-01_10-00-00-pola.jpg".data) ⟨2023, 1, 1, 10, 0, 0⟩
    (by decide)).1 rfl ("%v, %v".data)

/-- Counterexample to C9 as stated: with a non-empty location the caption
is the location first, so it does not begin with 1er. -/
theorem C9_counterexample :
    captionText ("%v, %v".data) ("Paris".data) (displayedDate ⟨2023, 1, 1, 10, 0, 0⟩) =
      ("Paris, 1er janvier 2023".data) ∧
    startsWith (captionText ("%v, %v".data) ("Paris".data)
      (displayedDate ⟨2023, 1, 1, 10, 0, 0⟩)) ("1er ".data) = false ∧
    parsePolaChars ("2023-01-01_10-00-00-pola.jpg".data) = some ⟨2023, 1, 1, 10, 0, 0⟩ := by
  exact ⟨by decide, by decide, by decide⟩

/-- Claim C10: every task produced at any depth of the traversal carries
the single top-level destination directory, and its output path is that
destination joined with the file's base name — one flat output
directory. -/
theorem C10_flat_destination (cfg : Config) (fs : List Entry) (loca src dst : List Char)
    (t : AnnTask) (h : t ∈ actOnFilesM cfg fs loca src dst) :
    t.destination = dst ∧ outPath t = pathJoin dst t.fileName := by
  have hd := actOnFilesM_dest cfg fs loca src dst t h
  exact ⟨hd, by rw [outPath, hd]⟩

/-- Witness for C10: a nested file's task writes under the top-level
destination. -/
theorem C10_flat_destination_witness :
    (⟨"src/sub".data, "src/ready".data, "2023-03-15_10-00-00-pola.jpg".data,
      "sub, 15 mars 2023".data⟩ : AnnTask).destination = "src/ready".data ∧
    outPath (⟨"src/sub".data, "src/ready".data, "2023-03-15_10-00-00-pola.jpg".data,
      "sub, 15 mars 2023".data⟩ : AnnTask) =
      pathJoin ("src/ready".data) ("2023-03-15_10-00-00-pola.jpg".data) := by
  refine C10_flat_destination cfgDefault
    [Entry.dir ("sub".data) true [Entry.file ("2023-03-15_10-00-00-pola.jpg".data)]]
    [] ("src".data) ("src/ready".data) _ ?_
  rw [show actOnFilesM cfgDefault
      [Entry.dir ("sub".data) true [Entry.file ("2023-03-15_10-00-00-pola.jpg".data)]]
      [] ("src".data) ("src/ready".data) =
    actOnFileM cfgDefault
      (Entry.dir ("sub".data) true [Entry.file ("2023-03-15_10-00-00-pola.jpg".data)])
      [] ("src".data) ("src/ready".data) from by simp [actOnFilesM]]
  rw [actOnFileM_dir_other cfgDefault ("sub".data) _ [] ("src".data) ("src/ready".data)
    (by decide)]
  rw [show actOnFilesM cfgDefault [Entry.file ("2023-03-15_10-00-00-pola.jpg".data)]
      ("sub".data) (pathJoin ("src".data) ("sub".data)) ("src/ready".data) =
    actOnFileM cfgDefault (Entry.file ("2023-03-15_10-00-00-pola.jpg".data))
      ("sub".data) (pathJoin ("src".data) ("sub".data)) ("src/ready".data) from by
    simp [actOnFilesM]]
  rw [actOnFileM_file]
  decide
